import Mathlib

/-!
Shallow embedding of the driver backup/restore application (Electron main
process + React renderer).  The embedded operations are:

* the backup-folder `.inf` scanner (`scan-backup-folder` IPC handler in
  `src/electron/main.ts`, a PowerShell script run over every discovered
  `.inf` file, plus the TypeScript post-processing of its JSON output);
* the `DriverVer` version resolver of the `src/unnamed/part_000` revision
  of the same scanner;
* the restore reconciler `handleRestoreProcess` (`src/unnamed/part_004`);
* the `pnputil /enum-drivers` output parser `parsePnpUtilOutput`
  (`src/src/App.tsx`);
* the `is-folder-empty` IPC handler (`src/electron/main.ts`).

Strings are modelled as Lean `String`/`List Char`; whitespace is modelled
as ASCII blank, tab, CR and LF (`Char.isWhitespace`), which covers every
input appearing in the development.  The .NET regexes of the PowerShell
script are embedded by their exact matching semantics on such inputs,
including the interaction of the inline `(?m)` flag with `$` inside the
lazy section captures (with `(?m)`, `$` matches before every `'\n'`, so
the lazy group `(.*?)(?:\r?\n\[|$)` stops at the first line end).
-/

/-- Split a character list at every character satisfying `p`, keeping empty
pieces, as .NET `String.Split(char[])` does. -/
def splitOnPred (p : Char → Bool) : List Char → List (List Char)
  | [] => [[]]
  | c :: t =>
    match splitOnPred p t with
    | h :: rest => if p c then [] :: h :: rest else (c :: h) :: rest
    | [] => [[]]

/-- .NET `"s".Trim('"')`: remove every leading and trailing `'"'`. -/
def trimQuoteChars (s : String) : String :=
  ⟨((s.data.dropWhile (· == '"')).reverse.dropWhile (· == '"')).reverse⟩

/-- JavaScript `trim()` / .NET `Trim()`, on the ASCII whitespace the
inputs contain. -/
def trimWs (s : String) : String :=
  ⟨((s.data.dropWhile Char.isWhitespace).reverse.dropWhile Char.isWhitespace).reverse⟩

/-- Split a string at a single character (JavaScript `split` with a
one-character separator), keeping empty pieces. -/
def splitOnChar (c : Char) (s : String) : List String :=
  (splitOnPred (· == c) s.data).map fun piece => ⟨piece⟩

/-- `Array.prototype.join` / string interpolation with a separator. -/
def joinSep (sep : String) : List String → String
  | [] => ""
  | [s] => s
  | s :: t => s ++ sep ++ joinSep sep t

/-- JavaScript `split` with a multi-character separator: leftmost,
non-overlapping matches end the current piece.  The fuel argument only
serves termination and is always given as more than the text length. -/
def splitOnStrFuel (sep : List Char) : Nat → List Char → List (List Char)
  | 0, cs => [cs]
  | _ + 1, [] => [[]]
  | fuel + 1, c :: t =>
    if sep.isPrefixOf (c :: t) then
      [] :: splitOnStrFuel sep fuel ((c :: t).drop sep.length)
    else
      match splitOnStrFuel sep fuel t with
      | h :: rest => (c :: h) :: rest
      | [] => [[]]

/-- JavaScript `split` with a string separator. -/
def splitOnStr (sep : String) (s : String) : List String :=
  (splitOnStrFuel sep.data (s.data.length + 1) s.data).map fun piece => ⟨piece⟩

/-- Case-insensitive string equality (ASCII), as used by PowerShell `-match`
and by PowerShell hashtable keys. -/
def ciEq (a b : String) : Bool :=
  a.data.map Char.toLower == b.data.map Char.toLower

/-- The suffix following the last `'\n'` of a character list, when one
occurs. -/
def tailAfterLastNl : List Char → Option (List Char)
  | [] => none
  | c :: t =>
    match tailAfterLastNl t with
    | some r => some r
    | none => if c == '\n' then some t else none

/-- The suffix following the last `','` of a character list, when one
occurs. -/
def afterLastComma : List Char → Option (List Char)
  | [] => none
  | c :: t =>
    match afterLastComma t with
    | some r => some r
    | none => if c == ',' then some t else none

/-- Substring containment test (JavaScript `String.prototype.includes`). -/
def strIncludes (hay needle : List Char) : Bool :=
  if needle.isPrefixOf hay then true
  else
    match hay with
    | [] => false
    | _ :: t => strIncludes t needle

/-!
### Section capture

`(?msi)\[NAME\]\s*\r?\n(.*?)(?:\r?\n\[|$)` applied to the whole `.inf`
text.  The leftmost occurrence of `[NAME]` (case-insensitive) followed by a
whitespace run containing a newline starts the match; the lazy capture then
extends until the first position where either `\r?\n\[` matches or the
multiline `$` holds, i.e. until the end of the first captured line.
-/

/-- The lazily captured text: up to the first `'\n'`; when the following
line starts with `'['` the terminator `\r?\n\[` also swallows a preceding
`'\r'`, otherwise the multiline `$` fires before the `'\n'` and a trailing
`'\r'` stays inside the capture. -/
def captureLine (region : List Char) : List Char :=
  match region.findIdx? (· == '\n') with
  | none => region
  | some m =>
    let line := region.take m
    if (region.drop (m + 1)).head? == some '[' then
      if line.getLast? == some '\r' then line.dropLast else line
    else line

/-- Attempt the part of the pattern following the literal header: the
greedy `\s*\r?\n` consumes the whitespace run up to its last newline
(failing when the run holds none), and the lazy group captures from there. -/
def captureAfterHeader (rest : List Char) : Option (List Char) :=
  let R := rest.takeWhile Char.isWhitespace
  match tailAfterLastNl R with
  | none => none
  | some wsTail => some (captureLine (wsTail ++ rest.drop R.length))

/-- Scan for the leftmost occurrence of the full pattern. -/
def sectionCaptureAux (hdr : List Char) : List Char → Option (List Char)
  | [] => none
  | c :: cs =>
    if ((c :: cs).take hdr.length).map Char.toLower == hdr then
      match captureAfterHeader ((c :: cs).drop hdr.length) with
      | some cap => some cap
      | none => sectionCaptureAux hdr cs
    else sectionCaptureAux hdr cs

/-- `$infContent -match '(?msi)\[NAME\]\s*\r?\n(.*?)(?:\r?\n\[|$)'`,
returning `$Matches[1]`. -/
def sectionCapture (name : String) (content : String) : Option String :=
  (sectionCaptureAux (('[' :: name.data ++ [']']).map Char.toLower)
    content.data).map fun cs => ⟨cs⟩

/-!
### `.inf` parsing (`scan-backup-folder`, `src/electron/main.ts` 634-810)
-/

/-- One `[Strings]` line: `'^\s*([^;=\s]+)\s*=\s*(.*)$'`, returning the
trimmed, quote-stripped key/value pair. -/
def stringsLineKV (line : List Char) : Option (String × String) :=
  let cs := line.dropWhile Char.isWhitespace
  let key := cs.takeWhile fun c => !(c == ';' || c == '=' || c.isWhitespace)
  if key.isEmpty then none
  else
    match (cs.drop key.length).dropWhile Char.isWhitespace with
    | '=' :: tail => some (⟨key⟩, trimQuoteChars (trimWs ⟨tail⟩))
    | _ => none

/-- PowerShell hashtable assignment `$strings[$key] = $value` (string keys
are case-insensitive; assignment overwrites). -/
def tblSet (tbl : List (String × String)) (k v : String) : List (String × String) :=
  if tbl.any (fun p => ciEq p.1 k) then
    tbl.map fun p => if ciEq p.1 k then (p.1, v) else p
  else tbl ++ [(k, v)]

/-- PowerShell hashtable lookup (case-insensitive), `none` when
`ContainsKey` is false. -/
def tblGet? (tbl : List (String × String)) (k : String) : Option String :=
  (tbl.find? (fun p => ciEq p.1 k)).map (·.2)

/-- Build the string table from the captured `[Strings]` text: split on the
characters of `[System.Environment]::NewLine` and fold the matching
`key = value` lines into the hashtable. -/
def buildStrings (capture : Option String) : List (String × String) :=
  match capture with
  | none => []
  | some cap =>
    (splitOnPred (fun c => c == '\r' || c == '\n') cap.data).foldl
      (fun tbl line =>
        match stringsLineKV line with
        | some (k, v) => tblSet tbl k v
        | none => tbl) []

/-- `'^\s*KEY\s*=\s*(.*)$'` (PowerShell `-match` is case-insensitive),
returning the text following the `'='`; the callers trim it. -/
def keyValCapture (key : String) (line : List Char) : Option (List Char) :=
  let cs := line.dropWhile Char.isWhitespace
  if (cs.take key.length).map Char.toLower == key.data.map Char.toLower then
    match (cs.drop key.length).dropWhile Char.isWhitespace with
    | '=' :: tail => some tail
    | _ => none
  else none

/-- Resolve a `Provider` value: trim, strip quotes, and when the value is
wrapped in `%...%` look the inner token up in the string table, falling
back to the raw token when absent.  (For the sole input `"%"` the source
throws inside `Substring` and the per-file catch turns the file into an
error record; that input is outside every statement below.) -/
def resolveProvider (strings : List (String × String)) (raw : List Char) : String :=
  let val := trimQuoteChars (trimWs ⟨raw⟩)
  if val.data.head? == some '%' && val.data.getLast? == some '%'
      && decide (2 ≤ val.data.length) then
    let key : String := ⟨(val.data.drop 1).dropLast⟩
    match tblGet? strings key with
    | some v => v
    | none => key
  else val

/-- The capture of `'^\s*DriverVer\s*=\s*.*?\,\s*([\d\.]+)$'` given the
text after the `'='`: the lazy `.*?` succeeds exactly at the last comma,
whose remainder must be whitespace followed by a nonempty run of digits
and dots reaching the end of the line. -/
def mainDriverVerCapture (tail : List Char) : Option String :=
  match afterLastComma tail with
  | none => none
  | some seg =>
    let ds := seg.dropWhile Char.isWhitespace
    if !ds.isEmpty && ds.all (fun c => c.isDigit || c == '.') then some ⟨ds⟩
    else none

/-- The mutable `$props` record built while walking the `[Version]`
lines. -/
structure InfProps where
  provider : String
  className : String
  version : String
  originalName : String
  fullInfPath : String
  deriving Repr, DecidableEq

/-- `Split-Path $infPath -Leaf`. -/
def pathLeaf (p : String) : String :=
  ⟨p.data.foldl (fun acc c => if c == '\\' || c == '/' then [] else acc ++ [c]) []⟩

/-- The initial `$props` hashtable. -/
def initProps (infPath : String) : InfProps :=
  { provider := "", className := "", version := ""
    originalName := pathLeaf infPath, fullInfPath := infPath }

/-- One iteration of the `ForEach-Object` over the `[Version]` lines: the
`if`/`elseif` chain on `Provider`, `Class` and `DriverVer`. -/
def versionLineStep (strings : List (String × String)) (props : InfProps)
    (line : List Char) : InfProps :=
  match keyValCapture "Provider" line with
  | some tail => { props with provider := resolveProvider strings tail }
  | none =>
    match keyValCapture "Class" line with
    | some tail =>
      { props with className := trimQuoteChars (trimWs ⟨tail⟩) }
    | none =>
      match keyValCapture "DriverVer" line with
      | some tail =>
        match mainDriverVerCapture tail with
        | some v => { props with version := trimWs v }
        | none => props
      | none => props

/-- The `$props` record computed for one file: the `[Version]` capture
split on the newline characters and folded through the line step, using
the string table built from the `[Strings]` capture; `none` when the
`[Version]` pattern does not match. -/
def parseVersionProps (infPath content : String) : Option InfProps :=
  match sectionCapture "Version" content with
  | none => none
  | some cap =>
    some ((splitOnPred (fun c => c == '\r' || c == '\n') cap.data).foldl
      (versionLineStep (buildStrings (sectionCapture "Strings" content)))
      (initProps infPath))

/-- One element of the `$allDrivers` array: a driver object or an
`isError` object. -/
inductive InfItem where
  | ok (props : InfProps)
  | err (infPath : String) (message : String)
  deriving Repr, DecidableEq

/-- Whether an item is an error record. -/
def InfItem.isErr : InfItem → Bool
  | .ok _ => false
  | .err _ _ => true

/-- The loop body for one readable file: validate the parsed `$props`
(`if ($props.provider -and $props.version)`) and emit a driver or an
error record. -/
def processInfContent (infPath content : String) : InfItem :=
  match parseVersionProps infPath content with
  | none => .err infPath "Could not find [Version] section."
  | some props =>
    if props.provider ≠ "" && props.version ≠ "" then .ok props
    else
      .err infPath ("Skipped: Missing required properties ("
        ++ joinSep ", "
          ((if props.provider = "" then ["Provider"] else [])
            ++ (if props.version = "" then ["DriverVer"] else [])) ++ ")")

/-- The whole `try`/`catch` body for one file, the file-read outcome
(`Get-Content ... -ErrorAction Stop`) given as an `Except`: a read
exception becomes that file's error record. -/
def processFile (file : String × Except String String) : InfItem :=
  match file.2 with
  | .error msg => .err file.1 msg
  | .ok content => processInfContent file.1 content

/-- A driver as formatted by the TypeScript side. -/
structure FormattedDriver where
  props : InfProps
  id : String
  displayName : String
  infName : String
  deriving Repr, DecidableEq

/-- `{...d, id, displayName, infName}` for the driver at `index`. -/
def formatDriver (d : InfProps) (index : Nat) : FormattedDriver :=
  { props := d
    id := d.fullInfPath ++ "-" ++ d.originalName ++ "-" ++ toString index
    displayName := (if d.provider ≠ "" then d.provider else "Unknown")
      ++ " - " ++ (if d.className ≠ "" then d.className else d.originalName)
    infName := d.originalName }

/-- `successfulDrivers.map((d, index) => ...)`. -/
def formatAll (index : Nat) : List InfProps → List FormattedDriver
  | [] => []
  | d :: t => formatDriver d index :: formatAll (index + 1) t

/-- The driver objects among the parsed items, in order. -/
def successfulProps (items : List InfItem) : List InfProps :=
  items.filterMap fun i =>
    match i with
    | .ok p => some p
    | .err _ _ => none

/-- `message.split('\n')[0]`. -/
def firstLine (m : String) : String := (splitOnChar '\n' m).headD m

/-- The error strings pushed by `logError` while walking the items. -/
def errorMessages (items : List InfItem) : List String :=
  items.filterMap fun i =>
    match i with
    | .ok _ => none
    | .err p m => some ("Failed to parse INF '" ++ pathLeaf p ++ "': " ++ firstLine m)

/-- The `{drivers, errors}` result of `scan-backup-folder`. -/
structure ScanResult where
  drivers : List FormattedDriver
  errors : List String
  deriving Repr, DecidableEq

/-- The `ps.on('close')` callback past the transport: empty output (no
`.inf` file produced an item) yields the informational message, otherwise
the items are separated into formatted drivers and error log entries. -/
def scanClose (folderPath : String) (items : List InfItem) : ScanResult :=
  if items.isEmpty then
    { drivers := []
      errors := ["Scan complete: No .inf files found or processed in directory: "
        ++ folderPath] }
  else
    { drivers := formatAll 0 (successfulProps items)
      errors := errorMessages items }

/-- The scan of a backup folder, the discovered `.inf` files given with
their read outcomes: the PowerShell loop appends exactly one item per
file, and the close callback splits them. -/
def scanBackupFolder (folderPath : String)
    (files : List (String × Except String String)) : ScanResult :=
  scanClose folderPath (files.map processFile)

/-!
### `DriverVer` resolution (`src/unnamed/part_000` revision, lines 276-281)
-/

/-- Whether a character list is matched in full by
`[0-9]+\.[0-9]+(\.[0-9]+)*`: at least two dot-separated groups, each a
nonempty digit run. -/
def isDottedNumber (cs : List Char) : Bool :=
  let groups := splitOnPred (· == '.') cs
  decide (2 ≤ groups.length) && groups.all fun g => !g.isEmpty && g.all Char.isDigit

/-- `$fullVerLine -match '([0-9]+\.[0-9]+(\.[0-9]+)*)$'`: the leftmost
start of an end-anchored match, i.e. the longest suffix that is a dotted
number (longer suffixes are tried first). -/
def dottedSuffix? : List Char → Option (List Char)
  | [] => none
  | c :: t => if isDottedNumber (c :: t) then some (c :: t) else dottedSuffix? t

/-- The `part_000` `DriverVer` resolution, applied to the text captured
after the `'='`: trim and strip quotes; try the trailing dotted-number
regex; else, when the value contains a comma, `Split(',')[-1].Trim()`;
else the whole trimmed value. -/
def resolveDriverVer (raw : String) : String :=
  let fv := trimQuoteChars (trimWs raw)
  match dottedSuffix? fv.data with
  | some cap => trimWs ⟨cap⟩
  | none =>
    if fv.data.contains ',' then
      trimWs ⟨(splitOnPred (fun c => c == ',') fv.data).getLastD []⟩
    else fv

/-- The trailing dotted-number token, found here as the head of the
suffixes enumerated by decreasing length and filtered by the dotted-number
shape (an implementation of the same regex written independently, used by
the claim-side definitions below). -/
def longestDottedSuffix? (cs : List Char) : Option (List Char) :=
  ((List.range (cs.length + 1)).filterMap fun k =>
    if isDottedNumber (cs.drop k) then some (cs.drop k) else none).head?

/-- The resolution order exactly as claim C4 words it: the substring after
the last comma; if the value has no comma, the trailing dotted-number
token; and as last resort the whole trimmed value. -/
def claimOrderVersionResolve (raw : String) : String :=
  let fv := trimQuoteChars (trimWs raw)
  match afterLastComma fv.data with
  | some seg => trimWs ⟨seg⟩
  | none =>
    match longestDottedSuffix? fv.data with
    | some tok => trimWs ⟨tok⟩
    | none => fv

/-- The amended resolution order: first the trailing dotted-number token;
then, when the value contains a comma, the substring after the last comma;
and as last resort the whole trimmed value. -/
def amendedVersionResolve (raw : String) : String :=
  let fv := trimQuoteChars (trimWs raw)
  match longestDottedSuffix? fv.data with
  | some tok => trimWs ⟨tok⟩
  | none =>
    match afterLastComma fv.data with
    | some seg => trimWs ⟨seg⟩
    | none => fv

/-!
### Restore reconciler (`handleRestoreProcess`, `src/unnamed/part_004`
lines 1560-1643)
-/

/-- An installed driver as decoded from the `Get-WindowsDriver -Online`
JSON. -/
structure InstalledDriver where
  publishedName : String
  originalName : String
  provider : String
  className : String
  version : String
  deriving Repr, DecidableEq

/-- A backup driver selected for restore. -/
structure BackupDriver where
  displayName : String
  infName : String
  version : String
  fullInfPath : String
  deriving Repr, DecidableEq

/-- `installedDrivers.find(d => d.originalName === backupDriver.infName &&
d.version === backupDriver.version)`, kept as the found/not-found test. -/
def hasInstalledMatch (installed : List InstalledDriver) (b : BackupDriver) : Bool :=
  (installed.find? fun d =>
    d.originalName == b.infName && d.version == b.version).isSome

/-- `driversToInstallPaths.add(path)` on the insertion-ordered JavaScript
`Set`. -/
def setAdd (l : List String) (p : String) : List String :=
  if l.contains p then l else l ++ [p]

/-- Outcome of the reconciliation loop: the user cancelled, a dialog is
still awaiting an answer, or the loop finished with the set of paths to
install. -/
inductive ReconcileResult where
  | cancelled
  | awaiting
  | done (paths : List String)
  deriving Repr, DecidableEq

/-- The `for (const backupDriver of driversToRestore)` loop.  Dialog
answers are consumed from `responses` (button indices: 0 = install anyway,
1 = skip, 2 = yes-to-all, 3 = cancel; any other index falls through every
branch and the loop continues).  `replaceAll` is the
`replaceAllConfirmed` flag and `acc` the path set built so far. -/
def reconcileLoop (installed : List InstalledDriver) :
    List BackupDriver → List Nat → List String → Bool → ReconcileResult
  | [], _, acc, _ => .done acc
  | b :: rest, responses, acc, replaceAll =>
    if hasInstalledMatch installed b then
      if replaceAll then
        reconcileLoop installed rest responses (setAdd acc b.fullInfPath) true
      else
        match responses with
        | [] => .awaiting
        | r :: rs =>
          if r = 0 then
            reconcileLoop installed rest rs (setAdd acc b.fullInfPath) replaceAll
          else if r = 1 then reconcileLoop installed rest rs acc replaceAll
          else if r = 2 then
            reconcileLoop installed rest rs (setAdd acc b.fullInfPath) true
          else if r = 3 then .cancelled
          else reconcileLoop installed rest rs acc replaceAll
    else reconcileLoop installed rest responses (setAdd acc b.fullInfPath) replaceAll

/-- `handleRestoreProcess` past the installed-driver snapshot query: run
the loop from the empty path set with `replaceAllConfirmed = false`. -/
def handleRestoreProcess (installed : List InstalledDriver)
    (driversToRestore : List BackupDriver) (responses : List Nat) : ReconcileResult :=
  reconcileLoop installed driversToRestore responses [] false

/-- The install commands issued after the loop: cancellation returns
before any command is run; otherwise one combined `pnputil` command line
is issued when the final path list is nonempty. -/
def installCommands : ReconcileResult → List String
  | .done paths =>
    if paths.isEmpty then []
    else [joinSep " & "
      (paths.map fun p => "pnputil /add-driver \"" ++ p ++ "\" /install")]
  | .cancelled => []
  | .awaiting => []

/-!
### `parsePnpUtilOutput` (`src/src/App.tsx` lines 211-232)
-/

/-- One parsed `pnputil /enum-drivers` record. -/
structure PnpDriver where
  publishedName : String
  originalName : String
  provider : String
  className : String
  deriving Repr, DecidableEq

/-- One field line of a block: split on `':'`, the key being the first
piece and the value the re-joined rest, trimmed; the `includes` chain
assigns the matching field. -/
def pnpFieldStep (d : PnpDriver) (line : String) : PnpDriver :=
  let parts := splitOnChar ':' line
  let key := parts.headD ""
  let value := trimWs (joinSep ":" parts.tail)
  if strIncludes key.data "Original Name".data then { d with originalName := value }
  else if strIncludes key.data "Provider Name".data then { d with provider := value }
  else if strIncludes key.data "Class Name".data then { d with className := value }
  else d

/-- The record folded from one block's lines, before the completeness
check. -/
def blockRecord (entry : String) : PnpDriver :=
  let lines := splitOnChar '\n' (trimWs entry)
  lines.tail.foldl pnpFieldStep
    { publishedName := trimWs (lines.headD "")
      originalName := "", provider := "", className := "" }

/-- The kept record of one block: `none` when the published name is empty
or one of the three fields is missing (the block is skipped with no error
output), otherwise the record keyed by its published name. -/
def entryRecord? (entry : String) : Option (String × PnpDriver) :=
  let publishedName := trimWs ((splitOnChar '\n' (trimWs entry)).headD "")
  if publishedName = "" then none
  else
    let d := blockRecord entry
    if d.originalName ≠ "" && d.provider ≠ "" && d.className ≠ "" then
      some (publishedName, d)
    else none

/-- `driversMap.set(publishedName, driver)` on the JavaScript `Map`:
an existing key keeps its position and takes the new value. -/
def mapSet (m : List (String × PnpDriver)) (k : String) (v : PnpDriver) :
    List (String × PnpDriver) :=
  if m.any (·.1 == k) then m.map fun p => if p.1 == k then (p.1, v) else p
  else m ++ [(k, v)]

/-- Processing of one block into the map. -/
def pnpStep (m : List (String × PnpDriver)) (entry : String) :
    List (String × PnpDriver) :=
  match entryRecord? entry with
  | some (k, d) => mapSet m k d
  | none => m

/-- The `entries.forEach` fold. -/
def entriesFold (m : List (String × PnpDriver)) (entries : List String) :
    List (String × PnpDriver) :=
  entries.foldl pnpStep m

/-- `parsePnpUtilOutput`: split on the `Published Name :` marker, drop the
leading piece, fold the blocks into the map, and return its values. -/
def parsePnpUtilOutput (output : String) : List PnpDriver :=
  (entriesFold [] ((splitOnStr "Published Name :" output).tail)).map (·.2)

/-!
### `is-folder-empty` (`src/electron/main.ts` lines 369-381)
-/

/-- A file-system error, distinguished by its `code`. -/
inductive FsError where
  | enoent
  | other (code : String)
  deriving Repr, DecidableEq

/-- The `is-folder-empty` handler, the outcomes of `fs.access` and
`fs.readdir` given as `Except` values: an `ENOENT` from either call is
caught and reported as empty, any other error as not empty, and a
successful listing is empty exactly when it has no entries. -/
def isFolderEmpty (access : Except FsError Unit)
    (readdir : Except FsError (List String)) : Bool :=
  match access with
  | .error .enoent => true
  | .error (.other _) => false
  | .ok _ =>
    match readdir with
    | .ok files => files.length == 0
    | .error .enoent => true
    | .error (.other _) => false

/-!
### Empty-folder guard of the `findInfFiles`-based scan revision
(`src/electron/main.ts` lines 221-236)
-/

/-- The early return of the first `scan-backup-folder` revision: when the
recursive walk found no `.inf` file, the handler returns an empty driver
list with one informational message and skips the PowerShell stage
(`some` result); otherwise the scan continues (`none`). -/
def noInfFilesEarlyReturn (folderPath : String) (infFiles : List String) :
    Option ScanResult :=
  if infFiles.isEmpty then
    some { drivers := []
           errors := ["Scan complete: No .inf files found in the directory: "
             ++ folderPath] }
  else none

/-!
### Theorems
-/

/-- C3.  The spec expects every well-formed `.inf` holding `[Version]` with
`Provider`, `Class` and `DriverVer` to yield one valid record with
`version = "3.1.2.0"`; the code's section capture stops at the first line
of `[Version]` (multiline `$` inside the lazy group), so `DriverVer` is
never seen, the validation branch fails and the file becomes an error
record — the scan of this single well-formed file returns zero drivers. -/
theorem c3_wellformed_inf_becomes_error_record :
    processInfContent "C:\\backup\\acme\\acme.inf"
        "[Version]\nProvider=\"Acme\"\nClass=Net\nDriverVer=10/21/2022,3.1.2.0\n"
      = .err "C:\\backup\\acme\\acme.inf"
          "Skipped: Missing required properties (DriverVer)"
    ∧ (scanBackupFolder "C:\\backup"
        [("C:\\backup\\acme\\acme.inf",
          .ok "[Version]\nProvider=\"Acme\"\nClass=Net\nDriverVer=10/21/2022,3.1.2.0\n")]).drivers
      = [] := by
  exact ⟨by decide, by decide⟩

/-- C6.  `Provider=%Vendor%` with `Vendor` defined in `[Strings]` should
resolve to `"Acme Corp"`; because the `[Strings]` capture also stops at
its first line, only `Other` enters the string table, the lookup misses
and the provider falls back to the raw token `"Vendor"`. -/
theorem c6_defined_strings_token_not_resolved :
    (parseVersionProps "C:\\b\\v.inf"
        "[Version]\nProvider=%Vendor%\nClass=Net\nDriverVer=10/21/2022,3.1.2.0\n[Strings]\nOther=\"x\"\nVendor=\"Acme Corp\"\n").map
        (·.provider)
      = some "Vendor"
    ∧ ("Vendor" : String) ≠ "Acme Corp" := by
  exact ⟨by decide, by decide⟩

/-- C4 counterexample.  The claim resolves a comma-bearing value by the
substring after the last comma; on `"1,a2.5"` the code's trailing
dotted-number regex fires first and yields `"2.5"`, not `"a2.5"`. -/
theorem c4_counterexample :
    resolveDriverVer "1,a2.5" = "2.5"
    ∧ claimOrderVersionResolve "1,a2.5" = "a2.5"
    ∧ ("2.5" : String) ≠ "a2.5" := by
  exact ⟨by decide, by decide, by decide⟩

/-- C5 counterexample.  A scan of zero `.inf` files (`N = 0`, `K = 0`)
yields one entry in `errors` — the informational no-files message — not
`K = 0` entries as the claim requires. -/
theorem c5_counterexample :
    (scanBackupFolder "C:\\backup" []).errors.length = 1
    ∧ ([] : List (String × Except String String)).countP
        (fun f => (processFile f).isErr) = 0
    ∧ (1 : Nat) ≠ 0 := by
  exact ⟨by decide, by decide, by decide⟩

/-- C8.  A scan finding zero `.inf` files returns an empty driver list and
a single informational message mentioning that no `.inf` files were found
(both scanner revisions), and both embeddings are total functions — no
exception is raised. -/
theorem c8_zero_inf_files_informational :
    ∀ folderPath : String,
      (scanClose folderPath [] =
          { drivers := []
            errors := ["Scan complete: No .inf files found or processed in directory: "
              ++ folderPath] }
        ∧ "No .inf files found".data
            <:+: ("Scan complete: No .inf files found or processed in directory: "
              ++ folderPath).data)
      ∧ (noInfFilesEarlyReturn folderPath [] =
          some { drivers := []
                 errors := ["Scan complete: No .inf files found in the directory: "
                   ++ folderPath] }
        ∧ "No .inf files found".data
            <:+: ("Scan complete: No .inf files found in the directory: "
              ++ folderPath).data) := by
  intro folderPath
  refine ⟨⟨rfl, ?_⟩, rfl, ?_⟩
  · have hbig : ("Scan complete: No .inf files found or processed in directory: " : String).data
        = "Scan complete: ".data ++ "No .inf files found".data
          ++ " or processed in directory: ".data := by decide
    refine ⟨"Scan complete: ".data,
      " or processed in directory: ".data ++ folderPath.data, ?_⟩
    simp [String.data_append, hbig, List.append_assoc]
  · have hbig : ("Scan complete: No .inf files found in the directory: " : String).data
        = "Scan complete: ".data ++ "No .inf files found".data
          ++ " in the directory: ".data := by decide
    refine ⟨"Scan complete: ".data,
      " in the directory: ".data ++ folderPath.data, ?_⟩
    simp [String.data_append, hbig, List.append_assoc]

/-- C10.  `is-folder-empty`: a nonexistent path (`ENOENT` from either
call) reports empty, any other access or read error reports not empty,
and an existing readable folder is empty exactly when its listing has no
entries. -/
theorem c10_is_folder_empty_cases :
    (∀ rd, isFolderEmpty (.error .enoent) rd = true)
    ∧ (∀ code rd, isFolderEmpty (.error (.other code)) rd = false)
    ∧ (isFolderEmpty (.ok ()) (.error .enoent) = true)
    ∧ (∀ code, isFolderEmpty (.ok ()) (.error (.other code)) = false)
    ∧ (∀ entries, isFolderEmpty (.ok ()) (.ok entries) = entries.isEmpty) := by
  refine ⟨fun rd => rfl, fun code rd => rfl, rfl, fun code => rfl, fun entries => ?_⟩
  cases entries <;> rfl

theorem contains_iff_mem_str {l : List String} {q : String} :
    l.contains q = true ↔ q ∈ l := by
  simp [List.contains_iff_exists_mem_beq, beq_iff_eq, eq_comm]

theorem setAdd_mem_iff {l : List String} {p q : String} :
    p ∈ setAdd l q ↔ p ∈ l ∨ p = q := by
  unfold setAdd
  by_cases h : l.contains q = true
  · rw [if_pos h]
    have hq : q ∈ l := contains_iff_mem_str.1 h
    constructor
    · exact Or.inl
    · rintro (hp | rfl)
      · exact hp
      · exact hq
  · rw [if_neg h]
    simp

theorem mem_setAdd_of_mem {l : List String} {p : String} (q : String) (h : p ∈ l) :
    p ∈ setAdd l q := setAdd_mem_iff.2 (Or.inl h)

theorem mem_setAdd_self (l : List String) (q : String) : q ∈ setAdd l q :=
  setAdd_mem_iff.2 (Or.inr rfl)

theorem done_step_assemble {acc acc' ps : List String} {rest : List BackupDriver}
    {b : BackupDriver}
    (hsub : ∀ p, p ∈ acc' → p ∈ acc ∨ p = b.fullInfPath)
    (hsup : ∀ p, p ∈ acc → p ∈ acc')
    (H1 : ∀ p, p ∈ ps → p ∈ acc' ∨ p ∈ rest.map (·.fullInfPath))
    (H2 : ∀ p, p ∈ acc' → p ∈ ps) :
    (∀ p, p ∈ ps → p ∈ acc ∨ p ∈ (b :: rest).map (·.fullInfPath))
    ∧ (∀ p, p ∈ acc → p ∈ ps) := by
  constructor
  · intro p hp
    rcases H1 p hp with h' | h'
    · rcases hsub p h' with h'' | h''
      · exact Or.inl h''
      · right
        simp [h'']
    · right
      simp [h']
  · exact fun p hp => H2 p (hsup p hp)

/-- Anything in the final path list of a finished loop came from the
accumulator or from a processed driver, and the accumulator survives into
the final list. -/
theorem reconcileLoop_done_both (installed : List InstalledDriver) :
    ∀ (ds : List BackupDriver) (resps : List Nat) (acc : List String) (ra : Bool)
      (ps : List String),
      reconcileLoop installed ds resps acc ra = .done ps →
      (∀ p, p ∈ ps → p ∈ acc ∨ p ∈ ds.map (·.fullInfPath))
      ∧ (∀ p, p ∈ acc → p ∈ ps)
  | [], resps, acc, ra, ps => by
    intro h
    simp only [reconcileLoop] at h
    cases h
    exact ⟨fun p hp => Or.inl hp, fun p hp => hp⟩
  | b :: rest, resps, acc, ra, ps => by
    intro h
    simp only [reconcileLoop] at h
    by_cases hm : hasInstalledMatch installed b
    · rw [if_pos hm] at h
      cases ra with
      | true =>
        rw [if_pos rfl] at h
        have IH := reconcileLoop_done_both installed rest resps
          (setAdd acc b.fullInfPath) true ps h
        exact done_step_assemble (fun p hp => setAdd_mem_iff.1 hp)
          (fun p hp => mem_setAdd_of_mem _ hp) IH.1 IH.2
      | false =>
        rw [if_neg (by simp)] at h
        cases resps with
        | nil =>
          dsimp only at h
          cases h
        | cons r rs =>
          dsimp only at h
          by_cases h0 : r = 0
          · rw [if_pos h0] at h
            have IH := reconcileLoop_done_both installed rest rs
              (setAdd acc b.fullInfPath) false ps h
            exact done_step_assemble (fun p hp => setAdd_mem_iff.1 hp)
              (fun p hp => mem_setAdd_of_mem _ hp) IH.1 IH.2
          · rw [if_neg h0] at h
            by_cases h1 : r = 1
            · rw [if_pos h1] at h
              have IH := reconcileLoop_done_both installed rest rs acc false ps h
              exact done_step_assemble (fun p hp => Or.inl hp) (fun p hp => hp)
                IH.1 IH.2
            · rw [if_neg h1] at h
              by_cases h2 : r = 2
              · rw [if_pos h2] at h
                have IH := reconcileLoop_done_both installed rest rs
                  (setAdd acc b.fullInfPath) true ps h
                exact done_step_assemble (fun p hp => setAdd_mem_iff.1 hp)
                  (fun p hp => mem_setAdd_of_mem _ hp) IH.1 IH.2
              · rw [if_neg h2] at h
                by_cases h3 : r = 3
                · rw [if_pos h3] at h
                  cases h
                · rw [if_neg h3] at h
                  have IH := reconcileLoop_done_both installed rest rs acc false ps h
                  exact done_step_assemble (fun p hp => Or.inl hp) (fun p hp => hp)
                    IH.1 IH.2
    · rw [if_neg hm] at h
      have IH := reconcileLoop_done_both installed rest resps
        (setAdd acc b.fullInfPath) ra ps h
      exact done_step_assemble (fun p hp => setAdd_mem_iff.1 hp)
        (fun p hp => mem_setAdd_of_mem _ hp) IH.1 IH.2

/-- With `replaceAllConfirmed` set, the loop finishes by itself, adding
every remaining driver's path and consulting no further dialog answer. -/
theorem reconcileLoop_replaceAll_done (installed : List InstalledDriver) :
    ∀ (ds : List BackupDriver) (resps : List Nat) (acc : List String),
      reconcileLoop installed ds resps acc true
        = .done (ds.foldl (fun a b => setAdd a b.fullInfPath) acc)
  | [], resps, acc => rfl
  | b :: rest, resps, acc => by
    simp only [reconcileLoop, List.foldl_cons]
    by_cases hm : hasInstalledMatch installed b
    · rw [if_pos hm, if_pos trivial]
      exact reconcileLoop_replaceAll_done installed rest resps (setAdd acc b.fullInfPath)
    · rw [if_neg hm]
      exact reconcileLoop_replaceAll_done installed rest resps (setAdd acc b.fullInfPath)

/-- C1.  A selected backup record without an installed `(originalName,
version)` match is marked for install with no dialog answer consumed; on
an exact match the user is asked, answer 1 (Skip) leaves the path set
unchanged and keeps that record's `.inf` path out of the final install
list (when no other source supplies the same path), while answer 0
(Install anyway) adds it and guarantees it reaches the final list. -/
theorem c1_reconcile_duplicate_handling (installed : List InstalledDriver)
    (b : BackupDriver) (rest : List BackupDriver) (resps : List Nat)
    (acc : List String) :
    (hasInstalledMatch installed b = false →
      reconcileLoop installed (b :: rest) resps acc false
        = reconcileLoop installed rest resps (setAdd acc b.fullInfPath) false)
    ∧ (hasInstalledMatch installed b = true →
      (reconcileLoop installed (b :: rest) (1 :: resps) acc false
          = reconcileLoop installed rest resps acc false)
      ∧ (∀ ps, reconcileLoop installed (b :: rest) (1 :: resps) acc false = .done ps →
          b.fullInfPath ∉ acc → b.fullInfPath ∉ rest.map (·.fullInfPath) →
          b.fullInfPath ∉ ps)
      ∧ (reconcileLoop installed (b :: rest) (0 :: resps) acc false
          = reconcileLoop installed rest resps (setAdd acc b.fullInfPath) false)
      ∧ (∀ ps, reconcileLoop installed (b :: rest) (0 :: resps) acc false = .done ps →
          b.fullInfPath ∈ ps)) := by
  constructor
  · intro hm
    simp [reconcileLoop, hm]
  · intro hm
    have e1 : reconcileLoop installed (b :: rest) (1 :: resps) acc false
        = reconcileLoop installed rest resps acc false := by
      simp [reconcileLoop, hm]
    have e0 : reconcileLoop installed (b :: rest) (0 :: resps) acc false
        = reconcileLoop installed rest resps (setAdd acc b.fullInfPath) false := by
      simp [reconcileLoop, hm]
    refine ⟨e1, ?_, e0, ?_⟩
    · intro ps hdone hnacc hnrest hmem
      rw [e1] at hdone
      rcases (reconcileLoop_done_both installed rest resps acc false ps hdone).1
        _ hmem with h | h
      · exact hnacc h
      · exact hnrest h
    · intro ps hdone
      rw [e0] at hdone
      exact (reconcileLoop_done_both installed rest resps (setAdd acc b.fullInfPath)
        false ps hdone).2 _ (mem_setAdd_self acc b.fullInfPath)

theorem c1_witness :
    (reconcileLoop [⟨"oem1.inf", "a.inf", "P", "C", "1.0"⟩]
        [⟨"B", "b.inf", "2.0", "X:\\b.inf"⟩] [] [] false
      = reconcileLoop [⟨"oem1.inf", "a.inf", "P", "C", "1.0"⟩] [] []
          (setAdd [] "X:\\b.inf") false)
    ∧ (reconcileLoop [⟨"oem1.inf", "a.inf", "P", "C", "1.0"⟩]
        [⟨"A", "a.inf", "1.0", "X:\\a.inf"⟩] [1] [] false
      = reconcileLoop [⟨"oem1.inf", "a.inf", "P", "C", "1.0"⟩] [] [] [] false)
    ∧ "X:\\a.inf" ∉ ([] : List String)
    ∧ "X:\\a.inf" ∈ ["X:\\a.inf"] := by
  refine ⟨(c1_reconcile_duplicate_handling [⟨"oem1.inf", "a.inf", "P", "C", "1.0"⟩]
      ⟨"B", "b.inf", "2.0", "X:\\b.inf"⟩ [] [] []).1 (by decide), ?_, ?_, ?_⟩
  · exact ((c1_reconcile_duplicate_handling [⟨"oem1.inf", "a.inf", "P", "C", "1.0"⟩]
      ⟨"A", "a.inf", "1.0", "X:\\a.inf"⟩ [] [] []).2 (by decide)).1
  · exact ((c1_reconcile_duplicate_handling [⟨"oem1.inf", "a.inf", "P", "C", "1.0"⟩]
      ⟨"A", "a.inf", "1.0", "X:\\a.inf"⟩ [] [] []).2 (by decide)).2.1 []
      (by decide) (by decide) (by decide)
  · exact ((c1_reconcile_duplicate_handling [⟨"oem1.inf", "a.inf", "P", "C", "1.0"⟩]
      ⟨"A", "a.inf", "1.0", "X:\\a.inf"⟩ [] [] []).2 (by decide)).2.2.2
      ["X:\\a.inf"] (by decide)

/-- C2.  Answering 3 (Cancel) at any duplicate prompt stops the loop at
once with the `cancelled` outcome — whatever was already accumulated in
the path set is discarded — and a cancelled outcome issues zero install
commands. -/
theorem c2_cancel_aborts (installed : List InstalledDriver) (b : BackupDriver)
    (rest : List BackupDriver) (resps : List Nat) (acc : List String) :
    hasInstalledMatch installed b = true →
      reconcileLoop installed (b :: rest) (3 :: resps) acc false = .cancelled
      ∧ installCommands ReconcileResult.cancelled = [] := by
  intro hm
  exact ⟨by simp [reconcileLoop, hm], rfl⟩

theorem c2_witness :
    reconcileLoop [⟨"oem1.inf", "a.inf", "P", "C", "1.0"⟩]
        [⟨"A", "a.inf", "1.0", "X:\\a.inf"⟩, ⟨"C", "c.inf", "1.0", "X:\\c.inf"⟩,
          ⟨"D", "d.inf", "1.0", "X:\\d.inf"⟩, ⟨"E", "e.inf", "1.0", "X:\\e.inf"⟩]
        [3] ["X:\\prev.inf"] false
      = .cancelled
    ∧ installCommands ReconcileResult.cancelled = [] :=
  c2_cancel_aborts _ _ _ _ _ (by decide)

/-- C7.  Answering 2 (Yes to All) at a duplicate prompt marks that record
and raises the sticky flag; with the flag raised, the rest of the batch —
duplicate or not — is marked automatically and no further dialog answer
is ever consumed. -/
theorem c7_install_all_sticky (installed : List InstalledDriver) :
    (∀ (b : BackupDriver) (rest : List BackupDriver) (resps : List Nat)
        (acc : List String),
      hasInstalledMatch installed b = true →
        reconcileLoop installed (b :: rest) (2 :: resps) acc false
          = reconcileLoop installed rest resps (setAdd acc b.fullInfPath) true)
    ∧ (∀ (ds : List BackupDriver) (resps : List Nat) (acc : List String),
        reconcileLoop installed ds resps acc true
          = .done (ds.foldl (fun a b => setAdd a b.fullInfPath) acc)) := by
  constructor
  · intro b rest resps acc hm
    simp [reconcileLoop, hm]
  · exact reconcileLoop_replaceAll_done installed

theorem c7_witness :
    (reconcileLoop [⟨"oem1.inf", "a.inf", "P", "C", "1.0"⟩]
        [⟨"A", "a.inf", "1.0", "X:\\a.inf"⟩, ⟨"A2", "a.inf", "1.0", "X:\\a2.inf"⟩]
        [2] [] false
      = reconcileLoop [⟨"oem1.inf", "a.inf", "P", "C", "1.0"⟩]
          [⟨"A2", "a.inf", "1.0", "X:\\a2.inf"⟩] [] (setAdd [] "X:\\a.inf") true)
    ∧ (reconcileLoop [⟨"oem1.inf", "a.inf", "P", "C", "1.0"⟩]
        [⟨"A2", "a.inf", "1.0", "X:\\a2.inf"⟩] [] ["X:\\a.inf"] true
      = .done (List.foldl (fun (a : List String) (b : BackupDriver) =>
            setAdd a b.fullInfPath) ["X:\\a.inf"]
          ([⟨"A2", "a.inf", "1.0", "X:\\a2.inf"⟩] : List BackupDriver))) :=
  ⟨(c7_install_all_sticky [⟨"oem1.inf", "a.inf", "P", "C", "1.0"⟩]).1
      ⟨"A", "a.inf", "1.0", "X:\\a.inf"⟩ [⟨"A2", "a.inf", "1.0", "X:\\a2.inf"⟩]
      [] [] (by decide),
    (c7_install_all_sticky [⟨"oem1.inf", "a.inf", "P", "C", "1.0"⟩]).2
      [⟨"A2", "a.inf", "1.0", "X:\\a2.inf"⟩] [] ["X:\\a.inf"]⟩

theorem successfulProps_length (items : List InfItem) :
    (successfulProps items).length = items.countP (fun i => !i.isErr) := by
  induction items with
  | nil => rfl
  | cons i t ih =>
    cases i <;> simp [successfulProps, InfItem.isErr, List.countP_cons] at ih ⊢ <;>
      omega

theorem errorMessages_length (items : List InfItem) :
    (errorMessages items).length = items.countP (fun i => i.isErr) := by
  induction items with
  | nil => rfl
  | cons i t ih =>
    cases i <;> simp [errorMessages, InfItem.isErr, List.countP_cons] at ih ⊢ <;>
      omega

theorem formatAll_length : ∀ (i : Nat) (ps : List InfProps),
    (formatAll i ps).length = ps.length
  | _, [] => rfl
  | i, _ :: t => by
    simp [formatAll, formatAll_length (i + 1) t]

theorem countP_ok_eq_sub (l : List InfItem) :
    l.countP (fun i => !i.isErr) = l.length - l.countP (fun i => i.isErr) := by
  induction l with
  | nil => rfl
  | cons i t ih =>
    have hle := List.countP_le_length (p := fun i => i.isErr) (l := t)
    cases hi : i.isErr <;> (simp [List.countP_cons, hi, ih]; try omega)


/-- C5 (amended to `N ≥ 1`).  A scan of `N ≥ 1` files of which `K` are
malformed — i.e. their processing yields an error record — returns exactly
`N - K` formatted drivers and exactly `K` error entries; the counts are
invariant under any permutation of the file list; and processing
distributes over concatenation, so one failing file never affects the
records or errors of its sibling files. -/
theorem c5_scan_counts (folderPath : String)
    (files : List (String × Except String String)) (hne : files ≠ []) :
    ((scanBackupFolder folderPath files).drivers.length
        = files.length - files.countP (fun f => (processFile f).isErr)
      ∧ (scanBackupFolder folderPath files).errors.length
        = files.countP (fun f => (processFile f).isErr))
    ∧ (∀ files', files.Perm files' →
        ((scanBackupFolder folderPath files').drivers.length
            = (scanBackupFolder folderPath files).drivers.length
          ∧ (scanBackupFolder folderPath files').errors.length
            = (scanBackupFolder folderPath files).errors.length))
    ∧ (∀ A B : List (String × Except String String),
        successfulProps ((A ++ B).map processFile)
            = successfulProps (A.map processFile)
              ++ successfulProps (B.map processFile)
          ∧ errorMessages ((A ++ B).map processFile)
            = errorMessages (A.map processFile)
              ++ errorMessages (B.map processFile)) := by
  have main : ∀ gs : List (String × Except String String), gs ≠ [] →
      (scanBackupFolder folderPath gs).drivers.length
          = gs.length - gs.countP (fun f => (processFile f).isErr)
        ∧ (scanBackupFolder folderPath gs).errors.length
          = gs.countP (fun f => (processFile f).isErr) := by
    intro gs hgs
    have hempty : ¬((gs.map processFile).isEmpty = true) := by
      simp [List.isEmpty_iff, hgs]
    simp only [scanBackupFolder, scanClose]
    rw [if_neg hempty]
    constructor
    · rw [formatAll_length, successfulProps_length, countP_ok_eq_sub,
        List.length_map, List.countP_map]
      rfl
    · rw [errorMessages_length, List.countP_map]
      rfl
  refine ⟨main files hne, ?_, ?_⟩
  · intro files' hperm
    have hne' : files' ≠ [] := by
      intro h
      exact hne (List.Perm.eq_nil (h ▸ hperm))
    rw [(main files' hne').1, (main files hne).1,
      (main files' hne').2, (main files hne).2, hperm.length_eq,
      hperm.countP_eq]
    exact ⟨rfl, rfl⟩
  · intro A B
    constructor <;>
      simp [successfulProps, errorMessages, List.map_append, List.filterMap_append]

theorem c5_witness :
    ([("C:\\b\\good\\g.inf",
        (.ok "[Version]\nProvider=Acme\rDriverVer=1,2.0\n" : Except String String)),
      ("C:\\b\\bad\\b.inf", .ok "no version"),
      ("C:\\b\\err\\e.inf", .error "Access denied")]
      ≠ [])
    ∧ (scanBackupFolder "C:\\b"
        [("C:\\b\\good\\g.inf", .ok "[Version]\nProvider=Acme\rDriverVer=1,2.0\n"),
          ("C:\\b\\bad\\b.inf", .ok "no version"),
          ("C:\\b\\err\\e.inf", .error "Access denied")]).drivers.length
      = 3 - 2
    ∧ (scanBackupFolder "C:\\b"
        [("C:\\b\\good\\g.inf", .ok "[Version]\nProvider=Acme\rDriverVer=1,2.0\n"),
          ("C:\\b\\bad\\b.inf", .ok "no version"),
          ("C:\\b\\err\\e.inf", .error "Access denied")]).errors.length
      = 2 := by
  have h := c5_scan_counts "C:\\b"
    [("C:\\b\\good\\g.inf", .ok "[Version]\nProvider=Acme\rDriverVer=1,2.0\n"),
      ("C:\\b\\bad\\b.inf", .ok "no version"),
      ("C:\\b\\err\\e.inf", .error "Access denied")]
    (List.cons_ne_nil _ _)
  refine ⟨List.cons_ne_nil _ _, ?_, ?_⟩
  · have := h.1.1
    rwa [show ([("C:\\b\\good\\g.inf",
        (.ok "[Version]\nProvider=Acme\rDriverVer=1,2.0\n" : Except String String)),
      ("C:\\b\\bad\\b.inf", .ok "no version"),
      ("C:\\b\\err\\e.inf", .error "Access denied")].countP
        (fun f => (processFile f).isErr)) = 2 from by decide,
      show ([("C:\\b\\good\\g.inf",
        (.ok "[Version]\nProvider=Acme\rDriverVer=1,2.0\n" : Except String String)),
      ("C:\\b\\bad\\b.inf", .ok "no version"),
      ("C:\\b\\err\\e.inf", .error "Access denied")].length) = 3 from by decide] at this
  · have := h.1.2
    rwa [show ([("C:\\b\\good\\g.inf",
        (.ok "[Version]\nProvider=Acme\rDriverVer=1,2.0\n" : Except String String)),
      ("C:\\b\\bad\\b.inf", .ok "no version"),
      ("C:\\b\\err\\e.inf", .error "Access denied")].countP
        (fun f => (processFile f).isErr)) = 2 from by decide] at this

theorem afterLastComma_isSome (cs : List Char) :
    (afterLastComma cs).isSome = cs.contains ',' := by
  induction cs with
  | nil => rfl
  | cons c t ih =>
    by_cases hc : c = ','
    · subst hc
      simp only [afterLastComma, List.contains_cons]
      cases ha : afterLastComma t <;> simp [ha]
    · simp only [afterLastComma, List.contains_cons]
      have hcc : (c == ',') = false := by
        rw [beq_eq_false_iff_ne]
        exact hc
      have hcc' : (',' == c) = false := by
        rw [beq_eq_false_iff_ne]
        exact fun h => hc h.symm
      cases ha : afterLastComma t with
      | none =>
        rw [if_neg (by simp [hcc])]
        have ht : t.contains ',' = false := by
          rw [← ih, ha]
          rfl
        rw [hcc']
        simp only [Option.isSome_none, Bool.false_or]
        exact ht.symm
      | some r =>
        dsimp only
        have ht : t.contains ',' = true := by
          rw [← ih, ha]
          rfl
        rw [ht]
        simp

theorem afterLastComma_none_split (cs : List Char)
    (h : afterLastComma cs = none) :
    splitOnPred (fun c => c == ',') cs = [cs] := by
  induction cs with
  | nil => rfl
  | cons c t ih =>
    simp only [afterLastComma] at h
    cases ha : afterLastComma t with
    | some r =>
      rw [ha] at h
      cases h
    | none =>
      rw [ha] at h
      dsimp only at h
      by_cases hc : (c == ',') = true
      · rw [if_pos hc] at h
        cases h
      · rw [if_neg hc] at h
        simp only [splitOnPred, ih ha]
        rw [if_neg hc]

theorem splitOnPred_comma_getLast : ∀ (cs : List Char) (r : List Char),
    afterLastComma cs = some r →
    ∃ hd tl, splitOnPred (fun c => c == ',') cs = hd :: tl ∧ tl ≠ []
      ∧ (hd :: tl).getLastD [] = r := by
  intro cs
  induction cs with
  | nil => intro r h; cases h
  | cons c t ih =>
    intro r h
    simp only [afterLastComma] at h
    cases ha : afterLastComma t with
    | some r' =>
      rw [ha] at h
      dsimp only at h
      injection h with h
      subst h
      obtain ⟨hd, tl, hsp, htl, hlast⟩ := ih r' ha
      by_cases hc : (c == ',') = true
      · refine ⟨[], hd :: tl, ?_, by simp, ?_⟩
        · simp only [splitOnPred, hsp]
          rw [if_pos hc]
        · rw [List.getLastD_cons]
          exact hlast
      · refine ⟨c :: hd, tl, ?_, htl, ?_⟩
        · simp only [splitOnPred, hsp]
          rw [if_neg hc]
        · obtain ⟨x, tl', rfl⟩ : ∃ x tl', tl = x :: tl' := by
            cases tl with
            | nil => exact absurd rfl htl
            | cons x tl' => exact ⟨x, tl', rfl⟩
          rw [List.getLastD_cons] at hlast ⊢
          rw [List.getLastD_cons] at hlast ⊢
          exact hlast
    | none =>
      rw [ha] at h
      dsimp only at h
      by_cases hc : (c == ',') = true
      · rw [if_pos hc] at h
        injection h with h
        subst h
        refine ⟨[], [t], ?_, by simp, by simp [List.getLastD_cons, List.getLastD]⟩
        simp only [splitOnPred, afterLastComma_none_split t ha]
        rw [if_pos hc]
      · rw [if_neg hc] at h
        cases h

theorem longestDottedSuffix_eq (cs : List Char) :
    longestDottedSuffix? cs = dottedSuffix? cs := by
  induction cs with
  | nil => rfl
  | cons c t ih =>
    have hlen : (c :: t).length + 1 = (t.length + 1) + 1 := by simp
    unfold longestDottedSuffix?
    rw [hlen, List.range_succ_eq_map, List.filterMap_cons]
    simp only [List.drop_zero]
    by_cases hd : isDottedNumber (c :: t) = true
    · rw [if_pos hd]
      simp only [List.head?_cons]
      unfold dottedSuffix?
      rw [if_pos hd]
    · rw [if_neg hd, List.filterMap_map]
      have hfun : ((fun k =>
            if isDottedNumber ((c :: t).drop k) = true
            then some ((c :: t).drop k) else none) ∘ Nat.succ)
          = fun k => if isDottedNumber (t.drop k) = true
            then some (t.drop k) else none := by
        funext k
        simp [Function.comp, List.drop_succ_cons]
      rw [hfun]
      unfold dottedSuffix?
      rw [if_neg hd]
      exact ih

/-- C4 (amended).  The `DriverVer` value is resolved in this order: the
trailing dotted-number regex first; then, when the value contains a comma,
the token after the last comma; and as last resort the whole trimmed
value — the code's resolution agrees with the amended order on every
input. -/
theorem c4_resolution_order (raw : String) :
    resolveDriverVer raw = amendedVersionResolve raw := by
  unfold resolveDriverVer amendedVersionResolve
  dsimp only
  rw [longestDottedSuffix_eq]
  cases hd : dottedSuffix? (trimQuoteChars (trimWs raw)).data with
  | some cap => rfl
  | none =>
    dsimp only
    cases ha : afterLastComma (trimQuoteChars (trimWs raw)).data with
    | some seg =>
      have hcont : (trimQuoteChars (trimWs raw)).data.contains ',' = true := by
        rw [← afterLastComma_isSome, ha]
        rfl
      rw [if_pos hcont]
      obtain ⟨hd', tl, hsp, htl, hlast⟩ := splitOnPred_comma_getLast _ _ ha
      rw [hsp, hlast]
    | none =>
      have hcont : (trimQuoteChars (trimWs raw)).data.contains ',' = false := by
        rw [← afterLastComma_isSome, ha]
        rfl
      rw [if_neg (by rw [hcont]; simp)]

theorem pnpFieldStep_publishedName (d : PnpDriver) (line : String) :
    (pnpFieldStep d line).publishedName = d.publishedName := by
  unfold pnpFieldStep
  dsimp only
  split
  · rfl
  · split
    · rfl
    · split
      · rfl
      · rfl

theorem foldl_pnpFieldStep_publishedName :
    ∀ (lines : List String) (d : PnpDriver),
      (lines.foldl pnpFieldStep d).publishedName = d.publishedName
  | [], _ => rfl
  | l :: t, d => by
    rw [List.foldl_cons, foldl_pnpFieldStep_publishedName t,
      pnpFieldStep_publishedName]

theorem blockRecord_publishedName (e : String) :
    (blockRecord e).publishedName
      = trimWs ((splitOnChar '\n' (trimWs e)).headD "") := by
  unfold blockRecord
  dsimp only
  rw [foldl_pnpFieldStep_publishedName]

theorem entryRecord?_publishedName {e k : String} {d : PnpDriver}
    (h : entryRecord? e = some (k, d)) : d.publishedName = k := by
  unfold entryRecord? at h
  dsimp only at h
  split at h
  · cases h
  · split at h
    · cases h
      rw [blockRecord_publishedName]
    · cases h

theorem entryRecord?_none_of_incomplete (e : String)
    (h : (blockRecord e).originalName = "" ∨ (blockRecord e).provider = ""
      ∨ (blockRecord e).className = "") : entryRecord? e = none := by
  unfold entryRecord?
  dsimp only
  split
  · rfl
  · rw [if_neg]
    rcases h with h | h | h <;> simp [h]

theorem mapSet_invariant {m : List (String × PnpDriver)} {k : String}
    {v : PnpDriver} (hkeys : (m.map (·.1)).Nodup)
    (hvals : ∀ p ∈ m, p.2.publishedName = p.1) (hv : v.publishedName = k) :
    ((mapSet m k v).map (·.1)).Nodup
    ∧ ∀ p ∈ mapSet m k v, p.2.publishedName = p.1 := by
  unfold mapSet
  by_cases hany : (m.any (·.1 == k)) = true
  · rw [if_pos hany]
    constructor
    · have hmap : (m.map fun p => if p.1 == k then (p.1, v) else p).map (·.1)
          = m.map (·.1) := by
        rw [List.map_map]
        apply List.map_congr_left
        intro p _
        simp only [Function.comp_apply]
        split
        · rfl
        · rfl
      rw [hmap]
      exact hkeys
    · intro p hp
      rw [List.mem_map] at hp
      obtain ⟨q, hq, rfl⟩ := hp
      by_cases h1 : (q.1 == k) = true
      · have hq1 : q.1 = k := by simpa [beq_iff_eq] using h1
        simp only [if_pos h1]
        simp [hq1, hv]
      · simp only [if_neg h1]
        exact hvals q hq
  · rw [if_neg hany]
    have hknotin : k ∉ m.map (·.1) := by
      intro hk
      rw [List.mem_map] at hk
      obtain ⟨q, hq, hq1⟩ := hk
      exact hany (List.any_eq_true.2 ⟨q, hq, by simp [beq_iff_eq, hq1]⟩)
    constructor
    · rw [List.map_append, List.nodup_append]
      refine ⟨hkeys, by simp, ?_⟩
      intro a ha hak
      simp only [List.map_cons, List.map_nil, List.mem_singleton] at hak
      exact hknotin (hak ▸ ha)
    · intro p hp
      rw [List.mem_append] at hp
      rcases hp with hp | hp
      · exact hvals p hp
      · rw [List.mem_singleton] at hp
        subst hp
        exact hv

theorem entriesFold_invariant :
    ∀ (es : List String) (m : List (String × PnpDriver)),
      (m.map (·.1)).Nodup → (∀ p ∈ m, p.2.publishedName = p.1) →
      ((entriesFold m es).map (·.1)).Nodup
      ∧ ∀ p ∈ entriesFold m es, p.2.publishedName = p.1
  | [], m => fun h1 h2 => ⟨h1, h2⟩
  | e :: t, m => fun h1 h2 => by
    unfold entriesFold
    rw [List.foldl_cons]
    cases he : entryRecord? e with
    | none =>
      have hstep : pnpStep m e = m := by simp [pnpStep, he]
      rw [hstep]
      exact entriesFold_invariant t m h1 h2
    | some kd =>
      obtain ⟨k, d⟩ := kd
      have hpub := entryRecord?_publishedName he
      have hstep : pnpStep m e = mapSet m k d := by simp [pnpStep, he]
      rw [hstep]
      obtain ⟨h1', h2'⟩ := mapSet_invariant h1 h2 hpub
      exact entriesFold_invariant t (mapSet m k d) h1' h2'

theorem find?_mapSet :
    ∀ (m : List (String × PnpDriver)) (k : String) (v : PnpDriver),
      (mapSet m k v).find? (fun p => p.1 == k) = some (k, v)
  | [], k, v => by simp [mapSet, List.find?]
  | p :: t, k, v => by
    by_cases h1 : (p.1 == k) = true
    · have hany : ((p :: t).any (·.1 == k)) = true := by
        simp [List.any_cons, h1]
      have hp1 : p.1 = k := by simpa [beq_iff_eq] using h1
      unfold mapSet
      rw [if_pos hany]
      simp only [List.map_cons, if_pos h1]
      rw [List.find?_cons]
      simp [h1, hp1]
    · have h1f : (p.1 == k) = false := by
        rw [Bool.eq_false_iff]
        exact h1
      by_cases hany : (t.any (·.1 == k)) = true
      · have hanyc : ((p :: t).any (·.1 == k)) = true := by
          simp [List.any_cons, hany]
        have IH := find?_mapSet t k v
        unfold mapSet at IH
        rw [if_pos hany] at IH
        unfold mapSet
        rw [if_pos hanyc]
        simp only [List.map_cons, if_neg h1]
        rw [List.find?_cons]
        simp only [h1f]
        exact IH
      · have hanyf : (t.any (·.1 == k)) = false := by
          rw [Bool.eq_false_iff]
          exact hany
        have hanyc : ((p :: t).any (·.1 == k)) = false := by
          simp [List.any_cons, h1f, hanyf]
        have IH := find?_mapSet t k v
        unfold mapSet at IH
        rw [if_neg (by simp [hanyf])] at IH
        unfold mapSet
        rw [if_neg (by simp [hanyc])]
        rw [List.cons_append, List.find?_cons]
        simp only [h1f]
        exact IH

/-- C9.  The `pnputil /enum-drivers` parser silently skips a block whose
folded record lacks one of Original Name, Provider Name or Class Name —
the surrounding output parses exactly as if the block were absent, and
the parser has no error output at all — its published names are pairwise
distinct, and when the last block keyed by a published name is kept its
record is the one stored for that key. -/
theorem c9_pnputil_parse_rules :
    (∀ (m : List (String × PnpDriver)) (es₁ es₂ : List String) (e : String),
      ((blockRecord e).originalName = "" ∨ (blockRecord e).provider = ""
        ∨ (blockRecord e).className = "") →
      entriesFold m (es₁ ++ e :: es₂) = entriesFold m (es₁ ++ es₂))
    ∧ (∀ output : String,
        (parsePnpUtilOutput output).Pairwise
          fun a b => a.publishedName ≠ b.publishedName)
    ∧ (∀ (m : List (String × PnpDriver)) (es : List String) (e k : String)
        (d : PnpDriver),
        entryRecord? e = some (k, d) →
        (entriesFold m (es ++ [e])).find? (fun p => p.1 == k) = some (k, d)) := by
  refine ⟨?_, ?_, ?_⟩
  · intro m es₁ es₂ e h
    have hnone := entryRecord?_none_of_incomplete e h
    unfold entriesFold
    rw [List.foldl_append, List.foldl_append]
    simp only [List.foldl_cons]
    rw [show pnpStep (List.foldl pnpStep m es₁) e = List.foldl pnpStep m es₁ from
      by simp [pnpStep, hnone]]
  · intro output
    unfold parsePnpUtilOutput
    rw [List.pairwise_map]
    obtain ⟨hnodup, hvals⟩ := entriesFold_invariant
      ((splitOnStr "Published Name :" output).tail) [] (by simp) (by simp)
    have hkeys : List.Pairwise (fun p q : String × PnpDriver => p.1 ≠ q.1)
        (entriesFold [] ((splitOnStr "Published Name :" output).tail)) := by
      rw [← List.pairwise_map]
      exact hnodup
    exact hkeys.imp_of_mem fun {a b} ha hb hne => by
      rw [hvals a ha, hvals b hb]
      exact hne
  · intro m es e k d he
    unfold entriesFold
    rw [List.foldl_append]
    simp only [List.foldl_cons, List.foldl_nil]
    rw [show pnpStep (List.foldl pnpStep m es) e = mapSet (List.foldl pnpStep m es) k d
      from by simp [pnpStep, he]]
    exact find?_mapSet _ k d

theorem c9_witness :
    (entriesFold []
        ([" oem1.inf\nOriginal Name : acme.inf\nProvider Name : Acme\nClass Name : Net\n"]
          ++ " oem2.inf\nOriginal Name : bad.inf\nProvider Name : B\n"
            :: [" oem1.inf\nOriginal Name : acme2.inf\nProvider Name : Acme2\nClass Name : Net2\n"])
      = entriesFold []
        ([" oem1.inf\nOriginal Name : acme.inf\nProvider Name : Acme\nClass Name : Net\n"]
          ++ [" oem1.inf\nOriginal Name : acme2.inf\nProvider Name : Acme2\nClass Name : Net2\n"]))
    ∧ (entriesFold []
        ([" oem1.inf\nOriginal Name : acme.inf\nProvider Name : Acme\nClass Name : Net\n"]
          ++ [" oem1.inf\nOriginal Name : acme2.inf\nProvider Name : Acme2\nClass Name : Net2\n"])).find?
        (fun p => p.1 == "oem1.inf")
      = some ("oem1.inf", ⟨"oem1.inf", "acme2.inf", "Acme2", "Net2"⟩) :=
  ⟨c9_pnputil_parse_rules.1 []
      [" oem1.inf\nOriginal Name : acme.inf\nProvider Name : Acme\nClass Name : Net\n"]
      [" oem1.inf\nOriginal Name : acme2.inf\nProvider Name : Acme2\nClass Name : Net2\n"]
      " oem2.inf\nOriginal Name : bad.inf\nProvider Name : B\n"
      (Or.inr (Or.inr (by decide))),
    c9_pnputil_parse_rules.2.2 []
      [" oem1.inf\nOriginal Name : acme.inf\nProvider Name : Acme\nClass Name : Net\n"]
      " oem1.inf\nOriginal Name : acme2.inf\nProvider Name : Acme2\nClass Name : Net2\n"
      "oem1.inf" ⟨"oem1.inf", "acme2.inf", "Acme2", "Net2"⟩ (by decide)⟩
